import Mathlib

/-!
Verification of the machine-topology discovery and affinity-binding core
(kmp_affinity.cpp) against its natural-language specification.

The C++ source is shallowly embedded: each embedded definition carries the
name of the source function it models.  Masks over OS processor ids are
modelled as `Finset Nat` (or, where the source iterates a mask in ascending
bit order, as the ascending list of set bits).  C `int` values are modelled
as `Int`/`Nat`; no arithmetic in the modelled fragments depends on 32-bit
wrap-around.
-/

namespace KmpAff

/-- Layer kinds (`kmp_hw_t`).  The closed enumeration from the data model. -/
inductive KmpHw where
  | SOCKET | PROC_GROUP | NUMA | DIE | TILE | MODULE | L3 | L2 | L1 | LLC
  | CORE | THREAD | UNKNOWN
  deriving DecidableEq, Repr, Fintype

/-- `kmp_hw_thread_t::UNKNOWN_ID` (-1), the sentinel for an unknown layer id. -/
def UNKNOWN_ID : Int := -1

/-! ### C5: `__kmp_aux_{set,unset,get}_affinity_mask_proc` -/

/-- The process-global state read by the aux mask-proc entry points:
whether affinity is capable (`KMP_AFFINITY_CAPABLE()`), the maximum proc
count (`__kmp_aux_get_affinity_max_proc()`, non-Windows: `__kmp_xproc`),
and the process full mask (`__kmp_affin_fullMask`). -/
structure AuxProcState where
  capable : Bool
  maxProc : Int
  fullMask : Finset Int

/-- `__kmp_aux_set_affinity_mask_proc`: returns the C return value and the
(possibly mutated) caller-supplied mask. -/
def kmp_aux_set_affinity_mask_proc (st : AuxProcState) (proc : Int)
    (mask : Finset Int) : Int × Finset Int :=
  if ¬st.capable then (-1, mask)
  else if proc < 0 ∨ proc ≥ st.maxProc then (-1, mask)
  else if proc ∉ st.fullMask then (-2, mask)
  else (0, insert proc mask)

/-- `__kmp_aux_unset_affinity_mask_proc`. -/
def kmp_aux_unset_affinity_mask_proc (st : AuxProcState) (proc : Int)
    (mask : Finset Int) : Int × Finset Int :=
  if ¬st.capable then (-1, mask)
  else if proc < 0 ∨ proc ≥ st.maxProc then (-1, mask)
  else if proc ∉ st.fullMask then (-2, mask)
  else (0, mask.erase proc)

/-- `__kmp_aux_get_affinity_mask_proc`: the mask is only read, never written.
Note the third test returns `0`, not `-2`, in the source. -/
def kmp_aux_get_affinity_mask_proc (st : AuxProcState) (proc : Int)
    (mask : Finset Int) : Int :=
  if ¬st.capable then -1
  else if proc < 0 ∨ proc ≥ st.maxProc then -1
  else if proc ∉ st.fullMask then 0
  else if proc ∈ mask then 1 else 0

/-! ### C10: `__kmp_affinity_str_buf_mask` / `__kmp_affinity_print_mask`

A mask is iterated in ascending bit order (`begin`/`next`/`end`), so it is
modelled here as the ascending list of its set bits.  The two printers share
the identical range-grouping loop; `__kmp_affinity_print_mask` additionally
truncates on a short buffer, which is irrelevant to the emitted format and
is not modelled. -/

/-- One emitted range `[start, previous]`: three or more contiguous bits use
`"a-b"`, exactly two use `"a,b"`, a single bit prints alone.  This mirrors
the `previous - start > 1` / `> 0` tests in the source. -/
def renderRun (start prev : Nat) : String :=
  if prev - start > 1 then toString start ++ "-" ++ toString prev
  else if prev - start > 0 then toString start ++ "," ++ toString prev
  else toString start

/-- The printing loop of `__kmp_affinity_str_buf_mask`: `start` is the first
bit of the current run, `prev` the most recent contiguous bit, and the list
holds the remaining set bits. -/
def renderLoop (start prev : Nat) (acc : String) : List Nat → String
  | [] => acc ++ renderRun start prev
  | f :: rest =>
    if f = prev + 1 then renderLoop start f acc rest
    else renderLoop f f (acc ++ renderRun start prev ++ ",") rest

/-- `__kmp_affinity_str_buf_mask`, on the ascending list of set bits. -/
def kmp_affinity_str_buf_mask : List Nat → String
  | [] => "\x7b<empty>\x7d"
  | b :: rest => renderLoop b b "" rest

/-- Maximal contiguous runs of the bit list, as `(first, last)` pairs,
stated independently of the printing loop (built from the right). -/
def specRuns : List Nat → List (Nat × Nat)
  | [] => []
  | a :: rest =>
    match specRuns rest with
    | [] => [(a, a)]
    | (x, y) :: rs => if x = a + 1 then (a, y) :: rs else (a, a) :: (x, y) :: rs

/-- Rendering of one run per the claim: a closed range `"a-b"` only for
three or more contiguous ids, `"a,b"` for exactly two, `"a"` for one. -/
def specRunStr (r : Nat × Nat) : String :=
  if r.2 ≥ r.1 + 2 then toString r.1 ++ "-" ++ toString r.2
  else if r.2 = r.1 + 1 then toString r.1 ++ "," ++ toString r.2
  else toString r.1

/-- Runs joined by commas, in list order. -/
def renderRunsStr : List (Nat × Nat) → String
  | [] => ""
  | [r] => specRunStr r
  | r :: rs => specRunStr r ++ "," ++ renderRunsStr rs

/-- The output format stated by the claim: the maximal contiguous runs,
each rendered by `specRunStr`, joined by commas in ascending order; the
empty mask prints as `"{<empty>}"` (braces escaped). -/
def specMaskStr (mask : List Nat) : String :=
  if mask = [] then "\x7b<empty>\x7d" else renderRunsStr (specRuns mask)

/-- Helper: folding a new run `(s, p)` into an already computed run list. -/
def mergeRun (s p : Nat) : List (Nat × Nat) → List (Nat × Nat)
  | [] => [(s, p)]
  | (x, y) :: rs => if x = p + 1 then (s, y) :: rs else (s, p) :: (x, y) :: rs

/-! ### C3: `kmp_hw_thread_t::compare_ids` -/

/-- The per-thread data read by `compare_ids`: the per-layer id tuple, the
core efficiency (`attrs`; `none` models an invalid/unknown efficiency, so
`is_core_eff_valid()` is `Option.isSome`), and the OS id. -/
structure HwThreadRec where
  ids : List Int
  core_eff : Option Int
  os_id : Nat

/-- The loop of `kmp_hw_thread_t::compare_ids`, walking the topology layer
types and the two id tuples in parallel (all three lists have length
`depth` in the source). -/
def compare_ids_go (hybrid : Bool) (aeff beff : Option Int) (aos bos : Nat) :
    List KmpHw → List Int → List Int → Int
  | t :: ts, x :: xs, y :: ys =>
    if hybrid = true ∧ t = KmpHw.CORE ∧ aeff.isSome ∧ beff.isSome ∧
        aeff.getD 0 < beff.getD 0 then 1
    else if hybrid = true ∧ t = KmpHw.CORE ∧ aeff.isSome ∧ beff.isSome ∧
        beff.getD 0 < aeff.getD 0 then -1
    else if x = y then compare_ids_go hybrid aeff beff aos bos ts xs ys
    else if x = UNKNOWN_ID then 1
    else if y = UNKNOWN_ID then -1
    else if x < y then -1
    else 1
  | _, _, _ => if aos < bos then -1 else if bos < aos then 1 else 0

/-- `kmp_hw_thread_t::compare_ids` (qsort comparator, returning -1/0/1).
`hybrid` is `__kmp_is_hybrid_cpu()` and `types` the topology's layer list. -/
def kmp_hw_thread_compare_ids (hybrid : Bool) (types : List KmpHw)
    (a b : HwThreadRec) : Int :=
  compare_ids_go hybrid a.core_eff b.core_eff a.os_id b.os_id types a.ids b.ids

/-- Conversion from a three-way `Ordering` to the C comparator convention. -/
def ordInt : Ordering → Int
  | .lt => -1
  | .eq => 0
  | .gt => 1

/-- Per-layer id order stated by the claim: `UNKNOWN_ID` sorts after every
numeric id, numeric ids sort ascending. -/
def specIdOrd (x y : Int) : Ordering :=
  if x = y then .eq
  else if x = UNKNOWN_ID then .gt
  else if y = UNKNOWN_ID then .lt
  else if x < y then .lt
  else .gt

/-- Descending order on known core efficiencies (higher efficiency first). -/
def specEffOrd (ea eb : Int) : Ordering :=
  if ea = eb then .eq else if eb < ea then .lt else .gt

/-- Per-layer order stated by the claim: at the CORE layer on a hybrid CPU,
threads of higher (known) core efficiency come first; otherwise the id
order of `specIdOrd`. -/
def specLevelOrd (hybrid : Bool) (aeff beff : Option Int) (t : KmpHw)
    (x y : Int) : Ordering :=
  if hybrid = true ∧ t = KmpHw.CORE then
    match aeff, beff with
    | some ea, some eb => (specEffOrd ea eb).then (specIdOrd x y)
    | _, _ => specIdOrd x y
  else specIdOrd x y

/-- Lexicographic composition of the per-layer orders, outermost first. -/
def specLexOrd (hybrid : Bool) (aeff beff : Option Int) :
    List KmpHw → List Int → List Int → Ordering
  | t :: ts, x :: xs, y :: ys =>
    (specLevelOrd hybrid aeff beff t x y).then (specLexOrd hybrid aeff beff ts xs ys)
  | _, _, _ => .eq

/-- Ascending order on OS ids, the final tie-break. -/
def specOsOrd (aos bos : Nat) : Ordering :=
  if aos = bos then .eq else if aos < bos then .lt else .gt

/-- The total order stated by the claim: lexicographic by ids with the
hybrid CORE exception, ties broken by ascending `os_id`. -/
def specCompareIds (hybrid : Bool) (types : List KmpHw) (a b : HwThreadRec) :
    Ordering :=
  (specLexOrd hybrid a.core_eff b.core_eff types a.ids b.ids).then
    (specOsOrd a.os_id b.os_id)

/-! ### C2: `__kmp_balanced_affinity`, uniform-topology branch -/

/-- The uniform-topology branch of `__kmp_balanced_affinity`.  `osId i` is
`__kmp_topology->at(i).os_id` (threads in canonical sort order), and
`fine_gran` is the granularity test made at the head of the function.
Returns the affinity mask assigned to thread `tid`. -/
def kmp_balanced_affinity_uniform (osId : Nat → Nat)
    (nthreads ncores nth_per_core : Nat) (fine_gran : Bool) (tid : Nat) :
    Finset Nat :=
  let chunk := nthreads / ncores
  let big_cores := nthreads % ncores
  let big_nth := (chunk + 1) * big_cores
  let coreID := if tid < big_nth then tid / (chunk + 1) else (tid - big_cores) / chunk
  let threadID := if tid < big_nth then tid % (chunk + 1) % nth_per_core
    else (tid - big_cores) % chunk % nth_per_core
  if fine_gran then {osId (coreID * nth_per_core + threadID)}
  else (Finset.range nth_per_core).image fun i => osId (coreID * nth_per_core + i)

/-- The assignment stated by the claim, with `chunk = nthreads / ncores`
and `big = nthreads % ncores`: threads with `tid < big*(chunk+1)` get core
`tid/(chunk+1)` and SMT slot `tid % (chunk+1) % nth_per_core`; the rest get
core `(tid-big)/chunk` and slot `(tid-big) % chunk % nth_per_core`; fine
granularity selects the single hardware thread at position
`core*nth_per_core + slot`, coarse granularity all `nth_per_core` hardware
threads of that core. -/
def specBalancedMask (osId : Nat → Nat)
    (nthreads ncores nth_per_core : Nat) (fine_gran : Bool) (tid : Nat) :
    Finset Nat :=
  let chunk := nthreads / ncores
  let big := nthreads % ncores
  let core := if tid < big * (chunk + 1) then tid / (chunk + 1) else (tid - big) / chunk
  let sub := if tid < big * (chunk + 1) then tid % (chunk + 1) % nth_per_core
    else (tid - big) % chunk % nth_per_core
  if fine_gran then {osId (core * nth_per_core + sub)}
  else (Finset.range nth_per_core).image fun i => osId (core * nth_per_core + i)

/-! ### C1: `kmp_topology_t::_remove_radix1_layers` -/

/-- The preference associative array set up at the head of
`_remove_radix1_layers`. -/
def preference : KmpHw → Nat
  | .SOCKET => 110
  | .PROC_GROUP => 100
  | .CORE => 95
  | .THREAD => 90
  | .NUMA => 85
  | .DIE => 80
  | .TILE => 75
  | .MODULE => 73
  | .L3 => 70
  | .L2 => 65
  | .L1 => 60
  | .LLC => 5
  | .UNKNOWN => 0

/-- The three main topology levels that the removal loop refuses to compact
when both members of the adjacent pair are among them. -/
def isMainLevel (t : KmpHw) : Prop :=
  t = KmpHw.THREAD ∨ t = KmpHw.CORE ∨ t = KmpHw.SOCKET

instance (t : KmpHw) : Decidable (isMainLevel t) := by
  unfold isMainLevel; infer_instance

/-- Core types for hybrid CPUs (`kmp_hw_core_type_t`). -/
inductive CoreType where
  | UNKNOWN | ATOM | CORE
  deriving DecidableEq, Repr

/-- A hardware-thread record (`kmp_hw_thread_t`), restricted to the fields
the modelled topology methods read or write.  `core_eff = none` models an
invalid/unknown core efficiency. -/
structure HwThread where
  os_id : Nat
  original_idx : Nat
  ids : List Int
  sub_ids : List Int
  core_type : CoreType
  core_eff : Option Int
  leader : Bool
  deriving DecidableEq, Repr

/-- The `kmp_topology_t` fields used by the modelled methods.  `count` and
`ratio` hold the entries `0 .. depth-1` of the corresponding arrays
(`depth = types.length`). -/
structure Topology where
  types : List KmpHw
  hw_threads : List HwThread
  count : List Nat
  ratio : List Nat
  equivalent : KmpHw → KmpHw
  uniform : Bool
  num_core_efficiencies : Nat
  core_types : List CoreType

/-- Modelled from the spec: `kmp_topology_t::set_equivalent_type` lives in
the header `kmp_affinity.h`, which is not among the sources; the spec
describes its effect at the call sites as `equivalent[dropped] = kept`. -/
def set_equivalent_type (eqv : KmpHw → KmpHw) (t1 t2 : KmpHw) : KmpHw → KmpHw :=
  fun t => if t = t1 then t2 else eqv t

/-- The scan of `_remove_radix1_layers` over threads `1 .. n-1` computing
the pair `(radix1, all_same)` for the layer pair at indices `(i, j)`;
`id1`/`id2` hold the previous thread's ids at those layers. -/
def radixScan (i j : Nat) : Int → Int → Bool → List HwThread → Bool × Bool
  | _, _, allSame, [] => (true, allSame)
  | id1, id2, allSame, t :: rest =>
    let a := t.ids.getD i 0
    let b := t.ids.getD j 0
    if a = id1 ∧ b ≠ id2 then (false, allSame)
    else radixScan i j a b (allSame && decide (b = id2)) rest

/-- The scan started from thread 0 (`hw_threads[0].ids[..]` seed the
previous-id state, `radix1 = all_same = true`). -/
def radixScanStart (i j : Nat) : List HwThread → Bool × Bool
  | [] => (true, true)
  | t0 :: rest => radixScan i j (t0.ids.getD i 0) (t0.ids.getD j 0) true rest

/-- One iteration of the removal loop at `top_index1 = i`,
`top_index2 = i + 1`: `none` means "advance" (either both layers are main
levels or the pair is not radix-1); `some (removed, kept, removeLayer,
removeLayerIds)` records the removal decision. -/
def radix1Step (topo : Topology) (i : Nat) :
    Option (KmpHw × KmpHw × Nat × Nat) :=
  let type1 := topo.types.getD i KmpHw.UNKNOWN
  let type2 := topo.types.getD (i + 1) KmpHw.UNKNOWN
  if isMainLevel type1 ∧ isMainLevel type2 then none
  else
    let scan := radixScanStart i (i + 1) topo.hw_threads
    if scan.1 then
      let info := if preference type1 > preference type2
        then (type2, type1, i + 1) else (type1, type2, i)
      let removeLayerIds := if scan.2 then i + 1 else info.2.2
      some (info.1, info.2.1, info.2.2, removeLayerIds)
    else none

/-- Carrying out a removal decision: set the equivalence of the removed
type to the kept type, shift every thread's ids left from
`removeLayerIds`, and drop `types[removeLayer]` (the source decrements
`depth`; here `depth = types.length` shrinks with the list). -/
def applyRemoval (topo : Topology) (removedT keptT : KmpHw)
    (removeLayer removeLayerIds : Nat) : Topology :=
  { topo with
    equivalent := set_equivalent_type topo.equivalent removedT keptT
    hw_threads := topo.hw_threads.map fun t =>
      { t with ids := t.ids.eraseIdx removeLayerIds }
    types := topo.types.eraseIdx removeLayer }

/-- The `while` loop of `_remove_radix1_layers`, with the loop invariant
`top_index2 = top_index1 + 1` made explicit (`i = top_index1`).  Each
iteration either advances `i` by one or removes one layer, so the measure
`2*types.length - i` strictly decreases and the fuel supplied by
`kmp_topology_remove_radix1_layers` never runs out.  Every removal is
recorded as an event `(pre-state, i, removed, kept)`. -/
def removeRadix1Go (fuel : Nat) (topo : Topology) (i : Nat) :
    Topology × List (Topology × Nat × KmpHw × KmpHw) :=
  match fuel with
  | 0 => (topo, [])
  | fuel + 1 =>
    if i + 1 < topo.types.length then
      match radix1Step topo i with
      | some (removedT, keptT, removeLayer, removeLayerIds) =>
        let next := applyRemoval topo removedT keptT removeLayer removeLayerIds
        let r := removeRadix1Go fuel next i
        (r.1, (topo, i, removedT, keptT) :: r.2)
      | none => removeRadix1Go fuel topo (i + 1)
    else (topo, [])

/-- `kmp_topology_t::_remove_radix1_layers`, also returning the removal
events. -/
def kmp_topology_remove_radix1_layers (topo : Topology) :
    Topology × List (Topology × Nat × KmpHw × KmpHw) :=
  removeRadix1Go (2 * topo.types.length + 1) topo 0

/-- Adjacent-pair implication checked by the scan: if the previous thread
has the same layer-`i` id, it must have the same layer-`j` id. -/
def radixRel (i j : Nat) (p c : HwThread) : Prop :=
  p.ids.getD i 0 = c.ids.getD i 0 → p.ids.getD j 0 = c.ids.getD j 0

instance (i j : Nat) (p c : HwThread) : Decidable (radixRel i j p c) := by
  unfold radixRel; infer_instance

/-- Threads whose layer-`i` ids are equal are contiguous: any thread lying
between two threads with equal layer-`i` ids shares that id.  This is the
sort invariant under which the scan's adjacent check coincides with the
claim's global reading of radix-1. -/
def GroupedAt (threads : List HwThread) (i : Nat) : Prop :=
  ∀ p q r : Fin threads.length, p ≤ q → q ≤ r →
    (threads.get p).ids.getD i 0 = (threads.get r).ids.getD i 0 →
    (threads.get q).ids.getD i 0 = (threads.get p).ids.getD i 0

/-- The concrete topology used to refute C1 as stated: a NUMA layer that is
radix-1 directly under SOCKET.  `equivalent` is initialised as in
`kmp_topology_t::allocate` (detected types map to themselves). -/
def radix1ExampleTopo : Topology where
  types := [KmpHw.SOCKET, KmpHw.NUMA, KmpHw.CORE, KmpHw.THREAD]
  hw_threads :=
    [⟨0, 0, [0, 0, 0, 0], [], CoreType.UNKNOWN, none, false⟩,
     ⟨1, 1, [0, 0, 0, 1], [], CoreType.UNKNOWN, none, false⟩,
     ⟨2, 2, [0, 0, 1, 0], [], CoreType.UNKNOWN, none, false⟩,
     ⟨3, 3, [0, 0, 1, 1], [], CoreType.UNKNOWN, none, false⟩]
  count := [1, 1, 2, 4]
  ratio := [1, 1, 2, 2]
  equivalent := fun t =>
    if t ∈ [KmpHw.SOCKET, KmpHw.NUMA, KmpHw.CORE, KmpHw.THREAD] then t
    else KmpHw.UNKNOWN
  uniform := true
  num_core_efficiencies := 0
  core_types := []

/-! ### C6, C7, C8: the canonicalization pipeline, `restrict_to_mask`,
and the `filter_hw_subset` all-filtered rejection -/

/-- Modelled from the spec: `get_level` (header, not among the sources)
returns the index in `types` of the equivalence-resolved kind, or none when
the kind has no equivalent in the detected topology. -/
def get_level (topo : Topology) (t : KmpHw) : Option Nat :=
  if topo.equivalent t = KmpHw.UNKNOWN then none
  else topo.types.findIdx? (· = topo.equivalent t)

/-- State threaded through the single pass of
`_gather_enumeration_information`: per-layer previous ids, the running
`max[]`, the accumulated `count[]` and `ratio[]`, and the hybrid-attribute
tallies (which the source does not reset on entry). -/
structure GatherSt where
  previous_id : List Int
  maxA : List Nat
  countA : List Nat
  ratioA : List Nat
  numEffs : Nat
  coreTypes : List CoreType

/-- One thread of the `_gather_enumeration_information` loop: find the
outermost layer whose id changed, bump the counts from that layer inward,
flush the fan-out statistics beneath it, and track hybrid core attributes
at or above the core layer. -/
def gatherStep (depth : Nat) (coreLevel : Option Nat) (hybrid : Bool)
    (st : GatherSt) (t : HwThread) : GatherSt :=
  match (List.range depth).find?
      (fun l => decide (t.ids.getD l 0 ≠ st.previous_id.getD l 0)) with
  | none => { st with previous_id := (List.range depth).map fun l => t.ids.getD l 0 }
  | some layer =>
    let countA := (List.range depth).map fun l =>
      st.countA.getD l 0 +
        if layer ≤ l ∧ t.ids.getD l 0 ≠ UNKNOWN_ID then 1 else 0
    let ratioA := (List.range depth).map fun l =>
      if layer < l then max (st.ratioA.getD l 0) (st.maxA.getD l 0)
      else st.ratioA.getD l 0
    let maxA := (List.range depth).map fun l =>
      if l = layer then
        st.maxA.getD l 0 + if t.ids.getD l 0 ≠ UNKNOWN_ID then 1 else 0
      else if layer < l then 1
      else st.maxA.getD l 0
    let inCore : Bool := hybrid && (match coreLevel with
      | some cl => decide (layer ≤ cl)
      | none => false)
    let numEffs := if inCore = true ∧ t.core_eff.isSome = true ∧
        (t.core_eff.getD 0) ≥ (st.numEffs : Int)
      then (t.core_eff.getD 0 + 1).toNat else st.numEffs
    let coreTypes := if inCore = true ∧ t.core_type ≠ CoreType.UNKNOWN ∧
        t.core_type ∉ st.coreTypes
      then st.coreTypes ++ [t.core_type] else st.coreTypes
    { previous_id := (List.range depth).map fun l => t.ids.getD l 0
      maxA := maxA, countA := countA, ratioA := ratioA
      numEffs := numEffs, coreTypes := coreTypes }

/-- `kmp_topology_t::_gather_enumeration_information`:
recompute `count`/`ratio` (entries `0 .. depth-1`) in one pass over the
sorted threads, and update the hybrid attribute tallies. -/
def kmp_topology_gather_enumeration (hybrid : Bool) (topo : Topology) :
    Topology :=
  let depth := topo.types.length
  let init : GatherSt :=
    ⟨List.replicate depth UNKNOWN_ID, List.replicate depth 0,
     List.replicate depth 0, List.replicate depth 0,
     topo.num_core_efficiencies, topo.core_types⟩
  let fin := topo.hw_threads.foldl
    (gatherStep depth (get_level topo KmpHw.CORE) hybrid) init
  { topo with
    count := fin.countA
    ratio := (List.range depth).map fun l =>
      max (fin.ratioA.getD l 0) (fin.maxA.getD l 0)
    num_core_efficiencies := fin.numEffs
    core_types := fin.coreTypes }

/-- `kmp_topology_t::_discover_uniformity`:
`uniform = (product of ratio[0..depth-1] == count[depth-1])`. -/
def kmp_topology_discover_uniformity (topo : Topology) : Topology :=
  let depth := topo.types.length
  { topo with
    uniform := decide ((topo.ratio.take depth).prod = topo.count.getD (depth - 1) 0) }

/-- State of the `_set_sub_ids` loop. -/
structure SubIdSt where
  previous_id : List Int
  sub_id : List Int

/-- One thread of the `_set_sub_ids` loop: bump the sub id at the outermost
changed layer and reset all inner sub ids. -/
def subIdStep (depth : Nat) (st : SubIdSt) (t : HwThread) : SubIdSt × HwThread :=
  let sub := match (List.range depth).find?
      (fun j => decide (t.ids.getD j 0 ≠ st.previous_id.getD j 0)) with
    | none => st.sub_id
    | some j => (List.range depth).map fun k =>
        if k = j then st.sub_id.getD k 0 + 1
        else if j < k then 0
        else st.sub_id.getD k 0
  (⟨(List.range depth).map fun j => t.ids.getD j 0, sub⟩,
   { t with sub_ids := sub })

/-- `kmp_topology_t::_set_sub_ids`. -/
def kmp_topology_set_sub_ids (topo : Topology) : Topology :=
  let depth := topo.types.length
  let init : SubIdSt := ⟨List.replicate depth (-1), List.replicate depth (-1)⟩
  let fin := topo.hw_threads.foldl
    (fun (acc : SubIdSt × List HwThread) t =>
      let r := subIdStep depth acc.1 t
      (r.1, r.2 :: acc.2))
    (init, [])
  { topo with hw_threads := fin.2.reverse }

/-- The aggregate counters set by `_set_globals`
(`__kmp_nThreadsPerCore`, `nCoresPerPkg`, `nPackages`, `__kmp_ncores`). -/
structure AffGlobals where
  nThreadsPerCore : Nat
  nCoresPerPkg : Nat
  nPackages : Nat
  ncores : Nat
  deriving DecidableEq, Repr

/-- Modelled from the spec: `calculate_ratio` is header code not among the
sources; §4.3.1 states the derived counter as a quotient of `ratio`
entries (`threads_per_core = ratio[thread_level] / ratio[core_level]`). -/
def calculate_ratio (topo : Topology) (level1 level2 : Nat) : Nat :=
  topo.ratio.getD level1 0 / topo.ratio.getD level2 0

/-- `kmp_topology_t::_set_globals` (non-Windows build: no PROC_GROUP
fallback for the package level).  The source asserts that the core and
thread levels exist; otherwise the globals are left unchanged here. -/
def kmp_topology_set_globals (topo : Topology) (g : AffGlobals) : AffGlobals :=
  match get_level topo KmpHw.CORE, get_level topo KmpHw.THREAD with
  | some core_level, some thread_level =>
    { nThreadsPerCore := calculate_ratio topo thread_level core_level
      nCoresPerPkg := match get_level topo KmpHw.SOCKET with
        | some package_level => calculate_ratio topo core_level package_level
        | none => topo.count.getD core_level 0
      nPackages := match get_level topo KmpHw.SOCKET with
        | some package_level => topo.count.getD package_level 0
        | none => 1
      ncores := topo.count.getD core_level 0 }
  | _, _ => g

/-- `kmp_topology_t::_set_last_level_cache` (non-MIC build): alias LLC to
the innermost existing cache layer, falling back to SOCKET, then CORE. -/
def kmp_topology_set_last_level_cache (topo : Topology) : Topology :=
  let t1 :=
    if topo.equivalent KmpHw.L3 ≠ KmpHw.UNKNOWN then
      { topo with equivalent := set_equivalent_type topo.equivalent KmpHw.LLC KmpHw.L3 }
    else if topo.equivalent KmpHw.L2 ≠ KmpHw.UNKNOWN then
      { topo with equivalent := set_equivalent_type topo.equivalent KmpHw.LLC KmpHw.L2 }
    else if topo.equivalent KmpHw.L1 ≠ KmpHw.UNKNOWN then
      { topo with equivalent := set_equivalent_type topo.equivalent KmpHw.LLC KmpHw.L1 }
    else topo
  if t1.equivalent KmpHw.LLC = KmpHw.UNKNOWN then
    if t1.equivalent KmpHw.SOCKET ≠ KmpHw.UNKNOWN then
      { t1 with equivalent := set_equivalent_type t1.equivalent KmpHw.LLC KmpHw.SOCKET }
    else if t1.equivalent KmpHw.CORE ≠ KmpHw.UNKNOWN then
      { t1 with equivalent := set_equivalent_type t1.equivalent KmpHw.LLC KmpHw.CORE }
    else t1
  else t1

/-- The process-wide affinity state around the topology:
the full mask (`__kmp_affin_fullMask`), available processor count
(`__kmp_avail_proc`), the original mask (`__kmp_affin_origMask`), the
aggregate counters and the hybrid flag (`__kmp_is_hybrid_cpu()`). -/
structure AffState where
  topo : Topology
  fullMask : Finset Nat
  availProc : Int
  origMask : Finset Nat
  globals : AffGlobals
  hybrid : Bool

/-- `kmp_topology_t::restrict_to_mask`: compact the thread array to the
threads whose OS id is in the mask, clearing removed bits from the full
mask and decrementing the available count; when any thread was removed,
re-gather, re-discover uniformity, re-set globals and the LLC alias, and
copy the filtered full mask to the original mask.  Returns the new state
and the `affected` flag. -/
def kmp_topology_restrict_to_mask (st : AffState) (mask : Finset Nat) :
    AffState × Bool :=
  let acc := st.topo.hw_threads.foldl
    (fun (acc : List HwThread × Finset Nat × Int) t =>
      if t.os_id ∈ mask then (t :: acc.1, acc.2.1, acc.2.2)
      else (acc.1, acc.2.1.erase t.os_id, acc.2.2 - 1))
    ([], st.fullMask, st.availProc)
  let newThreads := acc.1.reverse
  let topo1 : Topology := { st.topo with hw_threads := newThreads }
  if st.topo.hw_threads.length ≠ newThreads.length then
    let st1 : AffState :=
      { st with topo := topo1, fullMask := acc.2.1, availProc := acc.2.2 }
    let topo2 := kmp_topology_gather_enumeration st1.hybrid st1.topo
    let topo3 := kmp_topology_discover_uniformity topo2
    let g3 := kmp_topology_set_globals topo3 st1.globals
    let topo4 := kmp_topology_set_last_level_cache topo3
    ({ st1 with topo := topo4, globals := g3, origMask := st1.fullMask }, true)
  else
    ({ st with topo := topo1, fullMask := acc.2.1, availProc := acc.2.2 }, false)

/-- `kmp_topology_t::canonicalize()` (non-Windows, non-MIC build: the
processor-group insertion and the MIC Tile/L2 aliasing are compiled out):
remove radix-1 layers, gather enumeration, discover uniformity, set
sub-ids, set globals, set the LLC alias. -/
def kmp_topology_canonicalize (st : AffState) : AffState :=
  let topo1 := (kmp_topology_remove_radix1_layers st.topo).1
  let topo2 := kmp_topology_gather_enumeration st.hybrid topo1
  let topo3 := kmp_topology_discover_uniformity topo2
  let topo4 := kmp_topology_set_sub_ids topo3
  let g := kmp_topology_set_globals topo4 st.globals
  let topo5 := kmp_topology_set_last_level_cache topo4
  { st with topo := topo5, globals := g }

/-- The filtering tail of `kmp_topology_t::filter_hw_subset`,
parameterised by the per-thread `should_be_filtered` predicate (a function
of the thread's position in the sorted array and the record itself; in the
source it is computed from the KMP_HW_SUBSET items and the running sub-id
counters).  Walks the threads once, clearing filtered bits from a copy of
the full mask and counting them; returns `none` (reject with a warning,
`restrict_to_mask` not invoked) when every thread would be filtered, and
otherwise the filter mask to pass to `restrict_to_mask`. -/
def filter_hw_subset_decision (st : AffState)
    (shouldFilter : Nat → HwThread → Bool) : Option (Finset Nat) :=
  let r := st.topo.hw_threads.enum.foldl
    (fun (acc : Finset Nat × Nat) p =>
      if shouldFilter p.1 p.2 then (acc.1.erase p.2.os_id, acc.2 + 1) else acc)
    (st.fullMask, 0)
  if r.2 = st.topo.hw_threads.length then none else some r.1

/-- `kmp_topology_t::filter_hw_subset`, from the filtering loop onward:
either the all-filtered rejection (state unchanged, returns false) or the
application of `restrict_to_mask` (returns true). -/
def kmp_topology_filter_hw_subset_apply (st : AffState)
    (shouldFilter : Nat → HwThread → Bool) : AffState × Bool :=
  match filter_hw_subset_decision st shouldFilter with
  | none => (st, false)
  | some fmask => ((kmp_topology_restrict_to_mask st fmask).1, true)

/-! ### C4: the `:count` clause loop of `__kmp_affinity_process_placelist` -/

/-- The drop test of the shift loop, exactly as written in the source:
the shifted position runs past `maxOsId` or below 0, the *source*
position `j` is not in the process full mask, or the shifted position is
not a valid OS id (its own bit is clear in `osId2Mask[j+stride]`). -/
def dropCond (stride : Int) (maxOsId : Nat) (fullMask : Finset Nat)
    (valid : Nat → Bool) (j : Nat) : Prop :=
  (j : Int) + stride > (maxOsId : Int) ∨ (j : Int) + stride < 0 ∨
    j ∉ fullMask ∨ valid ((j : Int) + stride).toNat = false

instance (stride : Int) (maxOsId : Nat) (fullMask : Finset Nat)
    (valid : Nat → Bool) (j : Nat) :
    Decidable (dropCond stride maxOsId fullMask valid j) := by
  unfold dropCond; infer_instance

/-- The iteration order of `KMP_CPU_SET_ITERATE(j, previousMask)` followed
by the loop body's own `KMP_CPU_ISSET(j, previousMask)` skip: the set bits
of the place, ascending.  Every place handled by the clause loop lies
within `[0, maxOsId]` (base places are built from `osId2Mask` entries and
shifted positions are bounds-checked). -/
def maskIter (maxOsId : Nat) (prev : Finset Nat) : List Nat :=
  (List.range (maxOsId + 1)).filter fun j => decide (j ∈ prev)

/-- The shift loop over the previous place's bits in iteration order:
build the next `tempMask` and collect the dropped positions `j + stride`
in iteration order. -/
def shiftScan (stride : Int) (maxOsId : Nat) (fullMask : Finset Nat)
    (valid : Nat → Bool) : List Nat → Finset Nat × List Int
  | [] => (∅, [])
  | j :: rest =>
    let r := shiftScan stride maxOsId fullMask valid rest
    if dropCond stride maxOsId fullMask valid j then (r.1, ((j : Int) + stride) :: r.2)
    else (insert ((j : Int) + stride).toNat r.1, r.2)

/-- The `for (i = 0; i < count; i++)` loop of
`__kmp_affinity_process_placelist` that expands `place : count : stride`.
the iteration with `r + 1` iterations left is iteration `i = count - (r+1)`,
so the source's warning guard `i < count - 1` is exactly `0 < r` (silent
only on the final iteration `i = count - 1`); `temp` is `tempMask` with
`setSize = temp.card`.  Returns the emitted places and the warned
positions. -/
def placeClauseGo (stride : Int) (maxOsId : Nat) (fullMask : Finset Nat)
    (valid : Nat → Bool) : Nat → Finset Nat → List (Finset Nat) × List Int
  | 0, _ => ([], [])
  | r + 1, temp =>
    if temp.card = 0 then ([], [])
    else
      let s := shiftScan stride maxOsId fullMask valid (maskIter maxOsId temp)
      let warns := if 0 < r then s.2 else []
      let res := placeClauseGo stride maxOsId fullMask valid r s.1
      (temp :: res.1, warns ++ res.2)

/-- The `:count` expansion of one place in
`__kmp_affinity_process_placelist`, starting from the base place produced
by `__kmp_process_place` (`setSize > 0` iff the base is non-empty). -/
def kmp_process_place_count (base : Finset Nat) (count : Nat) (stride : Int)
    (maxOsId : Nat) (fullMask : Finset Nat) (valid : Nat → Bool) :
    List (Finset Nat) × List Int :=
  placeClauseGo stride maxOsId fullMask valid count base

/-- Set-level statement of one shift: keep the positions that survive the
drop test and move each by `stride`. -/
def specShift (stride : Int) (maxOsId : Nat) (fullMask : Finset Nat)
    (valid : Nat → Bool) (S : Finset Nat) : Finset Nat :=
  (S.filter fun j => ¬dropCond stride maxOsId fullMask valid j).image
    fun j : Nat => ((j : Int) + stride).toNat

/-- The dropped positions of one shift, in ascending source order. -/
def specDropped (stride : Int) (maxOsId : Nat) (fullMask : Finset Nat)
    (valid : Nat → Bool) (S : Finset Nat) : List Int :=
  ((maskIter maxOsId S).filter fun j =>
    decide (dropCond stride maxOsId fullMask valid j)).map
    fun j => (j : Int) + stride

/-- The places the amended claim predicts: the base place followed by
successive `specShift`s, stopping early as soon as a place is empty, and
at most `count` of them. -/
def specAmendedPlaces (stride : Int) (maxOsId : Nat) (fullMask : Finset Nat)
    (valid : Nat → Bool) : Nat → Finset Nat → List (Finset Nat)
  | 0, _ => []
  | c + 1, S =>
    if S = ∅ then []
    else S :: specAmendedPlaces stride maxOsId fullMask valid c
      (specShift stride maxOsId fullMask valid S)

/-- The warnings the amended claim predicts: every dropped position warns,
except those of the final iteration (whose shifted place is never
emitted), which are silent. -/
def specAmendedWarns (stride : Int) (maxOsId : Nat) (fullMask : Finset Nat)
    (valid : Nat → Bool) : Nat → Finset Nat → List Int
  | 0, _ => []
  | c + 1, S =>
    if S = ∅ then []
    else (if 0 < c then specDropped stride maxOsId fullMask valid S else []) ++
      specAmendedWarns stride maxOsId fullMask valid c
        (specShift stride maxOsId fullMask valid S)

/-! ### C9: the per-package consistency validation of
`__kmp_affinity_create_apicid_map` -/

/-- One entry of the `threadInfo` table collected per processor by the
legacy APIC back-end. -/
structure ApicThreadInfo where
  osId : Nat
  apicId : Nat
  pkgId : Nat
  coreId : Nat
  threadId : Nat
  maxCoresPerPkg : Nat
  maxThreadsPerPkg : Nat
  deriving DecidableEq, Repr

/-- The message ids the validation loop can fail with. -/
inductive KmpMsgId where
  | LegacyApicIDsNotUnique
  | InconsistentCpuidInfo
  deriving DecidableEq, Repr

/-- `__kmp_affinity_cmp_apicThreadInfo_phys_id`: the qsort comparator
ordering by `pkgId`, then `coreId`, then `threadId`. -/
def kmp_affinity_cmp_apicThreadInfo_phys_id (a b : ApicThreadInfo) : Int :=
  if a.pkgId < b.pkgId then -1
  else if a.pkgId > b.pkgId then 1
  else if a.coreId < b.coreId then -1
  else if a.coreId > b.coreId then 1
  else if a.threadId < b.threadId then -1
  else if a.threadId > b.threadId then 1
  else 0

/-- The non-strict order induced by the comparator (`cmp ≤ 0`). -/
def apicLe (a b : ApicThreadInfo) : Prop :=
  kmp_affinity_cmp_apicThreadInfo_phys_id a b ≤ 0

instance (a b : ApicThreadInfo) : Decidable (apicLe a b) := by
  unfold apicLe; infer_instance

/-- State of the radix-detection / consistency loop over the sorted table. -/
structure ApicLoopSt where
  nCores : Nat
  pkgCt : Nat
  lastPkgId : Nat
  coreCt : Nat
  lastCoreId : Nat
  threadCt : Nat
  lastThreadId : Nat
  prevMaxCoresPerPkg : Nat
  prevMaxThreadsPerPkg : Nat
  nCoresPerPkg : Nat
  nThreadsPerCore : Nat
  deriving DecidableEq, Repr

/-- The loop state as initialised from `threadInfo[0]`. -/
def apicInitSt (t0 : ApicThreadInfo) : ApicLoopSt where
  nCores := 1
  pkgCt := 1
  lastPkgId := t0.pkgId
  coreCt := 1
  lastCoreId := t0.coreId
  threadCt := 1
  lastThreadId := t0.threadId
  prevMaxCoresPerPkg := t0.maxCoresPerPkg
  prevMaxThreadsPerPkg := t0.maxThreadsPerPkg
  nCoresPerPkg := 1
  nThreadsPerCore := 1

/-- The loop over `threadInfo[1..]`: on a package change reset the
consistency state; within a package classify the record as a new core, a
new thread, or a duplicate id (failure `LegacyApicIDsNotUnique`), then
check that `maxCoresPerPkg`/`maxThreadsPerPkg` agree with the first record
of the package (failure `InconsistentCpuidInfo`). -/
def apicLoopGo (st : ApicLoopSt) : List ApicThreadInfo →
    Except KmpMsgId ApicLoopSt
  | [] => .ok st
  | r :: rest =>
    if r.pkgId ≠ st.lastPkgId then
      apicLoopGo
        { st with
          nCores := st.nCores + 1
          pkgCt := st.pkgCt + 1
          lastPkgId := r.pkgId
          nCoresPerPkg := max st.nCoresPerPkg st.coreCt
          coreCt := 1
          lastCoreId := r.coreId
          nThreadsPerCore := max st.nThreadsPerCore st.threadCt
          threadCt := 1
          lastThreadId := r.threadId
          prevMaxCoresPerPkg := r.maxCoresPerPkg
          prevMaxThreadsPerPkg := r.maxThreadsPerPkg } rest
    else if r.coreId ≠ st.lastCoreId then
      if st.prevMaxCoresPerPkg ≠ r.maxCoresPerPkg ∨
          st.prevMaxThreadsPerPkg ≠ r.maxThreadsPerPkg then
        .error .InconsistentCpuidInfo
      else
        apicLoopGo
          { st with
            nCores := st.nCores + 1
            coreCt := st.coreCt + 1
            lastCoreId := r.coreId
            nThreadsPerCore := max st.nThreadsPerCore st.threadCt
            threadCt := 1
            lastThreadId := r.threadId } rest
    else if r.threadId ≠ st.lastThreadId then
      if st.prevMaxCoresPerPkg ≠ r.maxCoresPerPkg ∨
          st.prevMaxThreadsPerPkg ≠ r.maxThreadsPerPkg then
        .error .InconsistentCpuidInfo
      else
        apicLoopGo
          { st with threadCt := st.threadCt + 1, lastThreadId := r.threadId } rest
    else
      .error .LegacyApicIDsNotUnique

/-- The aggregate counters established when the loop completes. -/
structure ApicCounters where
  nPackages : Nat
  nCoresPerPkg : Nat
  nThreadsPerCore : Nat
  nCores : Nat
  deriving DecidableEq, Repr

/-- The validation segment of `__kmp_affinity_create_apicid_map`: sort the
collected table by physical id (the source calls `qsort` with the
comparator; any comparator-consistent sort yields the same loop behaviour,
and insertion sort is used here), then run the consistency loop and
establish the counters.  The source asserts at least one record. -/
def kmp_affinity_create_apicid_map_validate (l : List ApicThreadInfo) :
    Except KmpMsgId ApicCounters :=
  match List.insertionSort apicLe l with
  | [] => .ok ⟨1, 1, 1, 1⟩
  | t0 :: rest =>
    match apicLoopGo (apicInitSt t0) rest with
    | .error e => .error e
    | .ok st => .ok ⟨st.pkgCt, max st.nCoresPerPkg st.coreCt,
        max st.nThreadsPerCore st.threadCt, st.nCores⟩

/-- The id triple of a record, for duplicate detection. -/
def apicTup (r : ApicThreadInfo) : Nat × Nat × Nat :=
  (r.pkgId, r.coreId, r.threadId)

/-- Two processors reporting the same APIC id (hence the same derived
package/core/thread ids) but different `maxCoresPerPkg`. -/
def apicExA : ApicThreadInfo := ⟨0, 0, 0, 0, 0, 2, 4⟩

/-- See `apicExA`. -/
def apicExB : ApicThreadInfo := ⟨1, 0, 0, 0, 0, 4, 4⟩

/-- Two same-package processors with distinct thread ids and different
`maxCoresPerPkg`. -/
def apicExC : ApicThreadInfo := ⟨0, 0, 0, 0, 0, 2, 4⟩

/-- See `apicExC`. -/
def apicExD : ApicThreadInfo := ⟨1, 1, 0, 0, 1, 4, 4⟩

/-- A concrete state over `radix1ExampleTopo` used by witnesses. -/
def exAffState : AffState where
  topo := radix1ExampleTopo
  fullMask := {0, 1, 2, 3}
  availProc := 4
  origMask := {0, 1, 2, 3}
  globals := ⟨2, 2, 1, 2⟩
  hybrid := false

end KmpAff

namespace KmpAff

/-! ## Theorems -/

theorem specRuns_cons (a : Nat) (rest : List Nat) :
    specRuns (a :: rest) = mergeRun a a (specRuns rest) := by
  simp only [specRuns, mergeRun]

theorem renderRun_eq_spec (s p : Nat) :
    renderRun s p =
      (if p ≥ s + 2 then toString s ++ "-" ++ toString p
       else if p = s + 1 then toString s ++ "," ++ toString p
       else toString s) := by
  unfold renderRun
  rcases Nat.lt_or_ge p (s + 1) with h | h
  · have h1 : ¬p - s > 1 := by omega
    have h2 : ¬p - s > 0 := by omega
    have h3 : ¬p ≥ s + 2 := by omega
    have h4 : ¬p = s + 1 := by omega
    simp [h1, h2, h3, h4]
  · rcases Nat.lt_or_ge p (s + 2) with h' | h'
    · have hp : p = s + 1 := by omega
      have h1 : ¬p - s > 1 := by omega
      have h2 : p - s > 0 := by omega
      have h3 : ¬p ≥ s + 2 := by omega
      simp [h1, h2, h3, hp]
    · have h1 : p - s > 1 := by omega
      simp [h1, h']

theorem renderRun_eq_specRunStr (s p : Nat) : renderRun s p = specRunStr (s, p) := by
  rw [renderRun_eq_spec]; rfl

theorem specRuns_cons_head (a : Nat) (l : List Nat) :
    ∃ y rs, specRuns (a :: l) = (a, y) :: rs := by
  rw [specRuns_cons]
  cases h : specRuns l with
  | nil => exact ⟨a, [], rfl⟩
  | cons r rs =>
    obtain ⟨x, y⟩ := r
    by_cases hx : x = a + 1
    · exact ⟨y, rs, by simp [mergeRun, hx]⟩
    · exact ⟨a, (x, y) :: rs, by simp [mergeRun, hx]⟩

theorem renderRunsStr_cons_cons (a b : Nat × Nat) (l : List (Nat × Nat)) :
    renderRunsStr (a :: b :: l) = specRunStr a ++ "," ++ renderRunsStr (b :: l) := rfl

theorem mergeRun_comp (start prev f : Nat) (R : List (Nat × Nat)) (h : f = prev + 1) :
    mergeRun start prev (mergeRun f f R) = mergeRun start f R := by
  subst h
  cases R with
  | nil => simp [mergeRun]
  | cons r rs =>
    obtain ⟨x, y⟩ := r
    by_cases hx : x = prev + 1 + 1
    · rw [show mergeRun (prev + 1) (prev + 1) ((x, y) :: rs) = (prev + 1, y) :: rs from by
        simp [mergeRun, hx]]
      simp [mergeRun, hx]
    · rw [show mergeRun (prev + 1) (prev + 1) ((x, y) :: rs)
          = (prev + 1, prev + 1) :: (x, y) :: rs from by simp [mergeRun, hx]]
      simp [mergeRun, hx]

theorem renderLoop_eq (l : List Nat) : ∀ start prev acc,
    renderLoop start prev acc l =
      acc ++ renderRunsStr (mergeRun start prev (specRuns l)) := by
  induction l with
  | nil =>
    intro start prev acc
    simp [renderLoop, mergeRun, renderRunsStr, renderRun_eq_specRunStr]
  | cons f rest ih =>
    intro start prev acc
    by_cases hf : f = prev + 1
    · rw [renderLoop, if_pos hf, ih, specRuns_cons, mergeRun_comp start prev f _ hf]
    · rw [renderLoop, if_neg hf, ih, specRuns_cons]
      obtain ⟨y, rs, hspec⟩ := specRuns_cons_head f rest
      rw [specRuns_cons] at hspec
      rw [hspec, show mergeRun start prev ((f, y) :: rs) = (start, prev) :: (f, y) :: rs
          from by simp [mergeRun, hf],
        renderRunsStr_cons_cons, renderRun_eq_specRunStr]
      simp [String.append_assoc]

/-- C10: for every mask, the pretty-printer output equals the format stated
by the claim: maximal contiguous runs joined by commas, a closed range
`"a-b"` only for runs of three or more set OS ids, `"a,b"` for a run of
exactly two, a single id alone, and `"{<empty>}"` for the empty mask. -/
theorem claim_C10 (mask : List Nat) :
    kmp_affinity_str_buf_mask mask = specMaskStr mask := by
  cases mask with
  | nil => rfl
  | cons b rest =>
    rw [kmp_affinity_str_buf_mask, renderLoop_eq, specMaskStr, ← specRuns_cons]
    simp

/-- C5 (amended): with affinity capable, each entry point returns `-1` for an
out-of-range proc; for an in-range proc absent from the process full mask,
`set` and `unset` return `-2` and `get` returns `0`; only when both checks
pass is the bit mutated or read. -/
theorem claim_C5 (st : AuxProcState) (proc : Int) (mask : Finset Int)
    (hcap : st.capable = true) :
    ((proc < 0 ∨ proc ≥ st.maxProc) →
      kmp_aux_set_affinity_mask_proc st proc mask = (-1, mask) ∧
      kmp_aux_unset_affinity_mask_proc st proc mask = (-1, mask) ∧
      kmp_aux_get_affinity_mask_proc st proc mask = -1) ∧
    (0 ≤ proc → proc < st.maxProc → proc ∉ st.fullMask →
      kmp_aux_set_affinity_mask_proc st proc mask = (-2, mask) ∧
      kmp_aux_unset_affinity_mask_proc st proc mask = (-2, mask) ∧
      kmp_aux_get_affinity_mask_proc st proc mask = 0) ∧
    (0 ≤ proc → proc < st.maxProc → proc ∈ st.fullMask →
      kmp_aux_set_affinity_mask_proc st proc mask = (0, insert proc mask) ∧
      kmp_aux_unset_affinity_mask_proc st proc mask = (0, mask.erase proc) ∧
      kmp_aux_get_affinity_mask_proc st proc mask =
        (if proc ∈ mask then 1 else 0)) := by
  unfold kmp_aux_set_affinity_mask_proc kmp_aux_unset_affinity_mask_proc
    kmp_aux_get_affinity_mask_proc
  refine ⟨fun hout => ?_, fun h0 hlt hnotin => ?_, fun h0 hlt hin => ?_⟩
  · simp [hcap, hout]
  · have : ¬(proc < 0 ∨ proc ≥ st.maxProc) := by omega
    simp [hcap, this, hnotin]
  · have : ¬(proc < 0 ∨ proc ≥ st.maxProc) := by omega
    simp [hcap, this, hin]

/-- C5 witness: concrete application of `claim_C5` at a capable state with
`maxProc = 4`, full mask `{0, 2}`, `proc = 1`. -/
theorem claim_C5_witness :
    kmp_aux_set_affinity_mask_proc ⟨true, 4, {0, 2}⟩ 1 ∅ = (-2, ∅) ∧
    kmp_aux_unset_affinity_mask_proc ⟨true, 4, {0, 2}⟩ 1 ∅ = (-2, ∅) ∧
    kmp_aux_get_affinity_mask_proc ⟨true, 4, {0, 2}⟩ 1 ∅ = 0 := by
  have h := (claim_C5 ⟨true, 4, {0, 2}⟩ 1 ∅ rfl).2.1 (by decide) (by decide)
    (by decide)
  simpa using h

/-- C5 counterexample to the claim as stated: `get_affinity_mask_proc` on an
in-range proc whose bit is clear in the process full mask returns `0`,
not `-2`. -/
theorem claim_C5_counterexample :
    kmp_aux_get_affinity_mask_proc ⟨true, 4, {0, 2}⟩ 1 ∅ ≠ -2 ∧
    (0 : Int) ≤ 1 ∧ (1 : Int) < 4 ∧ (1 : Int) ∉ ({0, 2} : Finset Int) := by
  decide

theorem ordering_then_assoc (a b c : Ordering) :
    (a.then b).then c = a.then (b.then c) := by
  cases a <;> simp [Ordering.then]

theorem ordInt_specOsOrd (aos bos : Nat) :
    ordInt (specOsOrd aos bos) =
      if aos < bos then -1 else if bos < aos then 1 else 0 := by
  unfold specOsOrd ordInt
  rcases Nat.lt_trichotomy aos bos with h | h | h
  · simp [h, Nat.ne_of_lt h]
  · simp [h]
  · have h1 : aos ≠ bos := Nat.ne_of_gt h
    have h2 : ¬aos < bos := by omega
    simp [h1, h2, h]

theorem id_branch_eq (x y : Int) (cont : Int) (contOrd : Ordering)
    (hcont : cont = ordInt contOrd) :
    (if x = y then cont
     else if x = UNKNOWN_ID then 1
     else if y = UNKNOWN_ID then -1
     else if x < y then -1
     else (1 : Int)) = ordInt ((specIdOrd x y).then contOrd) := by
  unfold specIdOrd
  by_cases h1 : x = y
  · simp [h1, Ordering.then, hcont]
  · by_cases h2 : x = UNKNOWN_ID
    · subst h2
      simp [h1, Ordering.then, ordInt]
    · by_cases h3 : y = UNKNOWN_ID
      · subst h3
        simp [h1, h2, Ordering.then, ordInt]
      · by_cases h4 : x < y
        · simp [h1, h2, h3, h4, Ordering.then, ordInt]
        · simp [h1, h2, h3, h4, Ordering.then, ordInt]

theorem specLevelOrd_of_invalid (hybrid : Bool) (aeff beff : Option Int)
    (t : KmpHw) (x y : Int)
    (h : aeff.isSome = false ∨ beff.isSome = false) :
    specLevelOrd hybrid aeff beff t x y = specIdOrd x y := by
  unfold specLevelOrd
  cases aeff with
  | none => cases beff <;> split <;> rfl
  | some ea =>
    cases beff with
    | none => split <;> rfl
    | some eb => simp at h

theorem specLevelOrd_of_some (hybrid : Bool) (ea eb : Int) (t : KmpHw)
    (x y : Int) (hc : hybrid = true ∧ t = KmpHw.CORE) :
    specLevelOrd hybrid (some ea) (some eb) t x y =
      (specEffOrd ea eb).then (specIdOrd x y) := by
  unfold specLevelOrd
  rw [if_pos hc]

theorem specLevelOrd_of_not_core (hybrid : Bool) (aeff beff : Option Int)
    (t : KmpHw) (x y : Int) (hc : ¬(hybrid = true ∧ t = KmpHw.CORE)) :
    specLevelOrd hybrid aeff beff t x y = specIdOrd x y := by
  unfold specLevelOrd
  rw [if_neg hc]

theorem compare_ids_go_eq (hybrid : Bool) (aeff beff : Option Int)
    (aos bos : Nat) : ∀ (ts : List KmpHw) (xs ys : List Int),
    compare_ids_go hybrid aeff beff aos bos ts xs ys =
      ordInt ((specLexOrd hybrid aeff beff ts xs ys).then (specOsOrd aos bos)) := by
  intro ts
  induction ts with
  | nil =>
    intro xs ys
    simp [compare_ids_go, specLexOrd, Ordering.then, ordInt_specOsOrd]
  | cons t ts ih =>
    intro xs ys
    cases xs with
    | nil => simp [compare_ids_go, specLexOrd, Ordering.then, ordInt_specOsOrd]
    | cons x xs =>
      cases ys with
      | nil => simp [compare_ids_go, specLexOrd, Ordering.then, ordInt_specOsOrd]
      | cons y ys =>
        rw [compare_ids_go, specLexOrd, ordering_then_assoc]
        by_cases hc : hybrid = true ∧ t = KmpHw.CORE
        · rcases aeff with _ | ea
          · rw [if_neg (by simp), if_neg (by simp),
              specLevelOrd_of_invalid hybrid none beff t x y (Or.inl rfl)]
            exact id_branch_eq x y _ _ (ih xs ys)
          · rcases beff with _ | eb
            · rw [if_neg (by simp), if_neg (by simp),
                specLevelOrd_of_invalid hybrid (some ea) none t x y (Or.inr rfl)]
              exact id_branch_eq x y _ _ (ih xs ys)
            · rw [specLevelOrd_of_some hybrid ea eb t x y hc]
              rcases lt_trichotomy ea eb with hlt | heq | hgt
              · rw [if_pos ⟨hc.1, hc.2, by simp, by simp, by simpa using hlt⟩]
                rw [show specEffOrd ea eb = .gt from by
                  unfold specEffOrd
                  rw [if_neg (ne_of_lt hlt), if_neg (not_lt.mpr (le_of_lt hlt))]]
                simp [Ordering.then, ordInt]
              · rw [if_neg (by simp [heq]), if_neg (by simp [heq])]
                rw [show specEffOrd ea eb = .eq from by unfold specEffOrd; rw [if_pos heq]]
                rw [show (Ordering.eq.then (specIdOrd x y)) = specIdOrd x y from rfl]
                exact id_branch_eq x y _ _ (ih xs ys)
              · rw [if_neg (by simp; intro _ _; omega),
                  if_pos ⟨hc.1, hc.2, by simp, by simp, by simpa using hgt⟩]
                rw [show specEffOrd ea eb = .lt from by
                  unfold specEffOrd
                  rw [if_neg (Ne.symm (ne_of_lt hgt)), if_pos hgt]]
                simp [Ordering.then, ordInt]
        · rw [if_neg (fun h => hc ⟨h.1, h.2.1⟩), if_neg (fun h => hc ⟨h.1, h.2.1⟩),
            specLevelOrd_of_not_core hybrid aeff beff t x y hc]
          exact id_branch_eq x y _ _ (ih xs ys)

/-- C3: `compare_ids` realises exactly the order stated by the claim:
lexicographic on the ids tuple outermost to innermost, except that on a
hybrid CPU at the CORE layer threads of higher (known) core efficiency come
first; `UNKNOWN_ID` sorts after every numeric id at its layer; full ties are
broken by ascending `os_id`. -/
theorem claim_C3 (hybrid : Bool) (types : List KmpHw) (a b : HwThreadRec) :
    kmp_hw_thread_compare_ids hybrid types a b =
      ordInt (specCompareIds hybrid types a b) := by
  unfold kmp_hw_thread_compare_ids specCompareIds
  exact compare_ids_go_eq hybrid a.core_eff b.core_eff a.os_id b.os_id
    types a.ids b.ids

/-- C2: the uniform branch of `__kmp_balanced_affinity` computes exactly the
core/slot assignment and mask stated by the claim. -/
theorem claim_C2 (osId : Nat → Nat) (nthreads ncores nth_per_core : Nat)
    (fine_gran : Bool) (tid : Nat) :
    kmp_balanced_affinity_uniform osId nthreads ncores nth_per_core fine_gran tid =
      specBalancedMask osId nthreads ncores nth_per_core fine_gran tid := by
  unfold kmp_balanced_affinity_uniform specBalancedMask
  simp only [Nat.mul_comm (nthreads / ncores + 1) (nthreads % ncores)]

theorem preference_injective :
    ∀ a b : KmpHw, preference a = preference b → a = b := by decide

theorem radixScan_fst_true_iff (i j : Nat) :
    ∀ (rest : List HwThread) (prev : HwThread) (s : Bool),
      (radixScan i j (prev.ids.getD i 0) (prev.ids.getD j 0) s rest).1 = true ↔
        List.Chain (radixRel i j) prev rest := by
  intro rest
  induction rest with
  | nil =>
    intro prev s
    simp [radixScan]
  | cons c rest ih =>
    intro prev s
    rw [radixScan]
    by_cases hbreak : c.ids.getD i 0 = prev.ids.getD i 0 ∧
        c.ids.getD j 0 ≠ prev.ids.getD j 0
    · rw [if_pos hbreak]
      simp only [List.chain_cons]
      constructor
      · intro h
        exact absurd h (by simp)
      · rintro ⟨hr, -⟩
        exact absurd (hr hbreak.1.symm) fun he => hbreak.2 he.symm
    · rw [if_neg hbreak, ih c]
      simp only [List.chain_cons]
      have hrel : radixRel i j prev c := by
        unfold radixRel
        intro hidi
        by_contra hne
        exact hbreak ⟨hidi.symm, fun he => hne he.symm⟩
      exact ⟨fun h => ⟨hrel, h⟩, fun h => h.2⟩

theorem radixScanStart_fst_true_iff (i j : Nat) (threads : List HwThread) :
    (radixScanStart i j threads).1 = true ↔
      List.Chain' (radixRel i j) threads := by
  cases threads with
  | nil => simp [radixScanStart]
  | cons t0 rest =>
    rw [radixScanStart]
    exact radixScan_fst_true_iff i j rest t0 true

theorem chain_grouped_semantic (i j : Nat) (threads : List HwThread)
    (hchain : List.Chain' (radixRel i j) threads)
    (hgrp : GroupedAt threads i) :
    ∀ p q : Fin threads.length,
      (threads.get p).ids.getD i 0 = (threads.get q).ids.getD i 0 →
      (threads.get p).ids.getD j 0 = (threads.get q).ids.getD j 0 := by
  have hstep : ∀ k : Nat, ∀ h : k + 1 < threads.length,
      radixRel i j (threads.get ⟨k, by omega⟩) (threads.get ⟨k + 1, h⟩) := by
    intro k h
    exact List.chain'_iff_get.mp hchain k (by omega)
  have hdir : ∀ d p : Nat, ∀ hp : p < threads.length,
      ∀ hq : p + d < threads.length,
      (threads.get ⟨p, hp⟩).ids.getD i 0 =
        (threads.get ⟨p + d, hq⟩).ids.getD i 0 →
      (threads.get ⟨p, hp⟩).ids.getD j 0 =
        (threads.get ⟨p + d, hq⟩).ids.getD j 0 := by
    intro d
    induction d with
    | zero =>
      intro p hp hq _
      rfl
    | succ d ihd =>
      intro p hp hq hi
      have hq' : p + d < threads.length := by omega
      have hgq' : (threads.get ⟨p + d, hq'⟩).ids.getD i 0 =
          (threads.get ⟨p, hp⟩).ids.getD i 0 := by
        refine hgrp ⟨p, hp⟩ ⟨p + d, hq'⟩ ⟨p + d + 1, hq⟩ ?_ ?_ hi
        · exact Fin.mk_le_mk.mpr (by omega)
        · exact Fin.mk_le_mk.mpr (by omega)
      have hj1 : (threads.get ⟨p, hp⟩).ids.getD j 0 =
          (threads.get ⟨p + d, hq'⟩).ids.getD j 0 := ihd p hp hq' hgq'.symm
      have hrel := hstep (p + d) hq
      have hj2 : (threads.get ⟨p + d, hq'⟩).ids.getD j 0 =
          (threads.get ⟨p + d + 1, hq⟩).ids.getD j 0 := hrel (hgq'.trans hi)
      exact hj1.trans hj2
  intro p q hi
  rcases Nat.le_total p.val q.val with hle | hle
  · have hq : q = ⟨p.val + (q.val - p.val), by omega⟩ :=
      Fin.ext (show q.val = p.val + (q.val - p.val) from by omega)
    rw [hq] at hi ⊢
    exact hdir (q.val - p.val) p.val p.isLt _ hi
  · have hp : p = ⟨q.val + (p.val - q.val), by omega⟩ :=
      Fin.ext (show p.val = q.val + (p.val - q.val) from by omega)
    rw [hp] at hi ⊢
    exact (hdir (p.val - q.val) q.val q.isLt _ hi.symm).symm

/-- C1 (amended): when the removal loop of `_remove_radix1_layers` drops a
layer of the adjacent pair `(types[i], types[i+1])`, then (1) it is not the
case that both layers are SOCKET/CORE/THREAD (the source only skips the
pair when both are; a pair with exactly one of them may still be
compacted), (2) the radix-1 scan held, and under the sort invariant that
equal outer-layer ids are contiguous this is exactly the claim's reading
that every thread with a given layer-`i` id has the same layer-`i+1` id,
(3) the dropped layer is the one of lower preference in the fixed table
SOCKET > PROC_GROUP > CORE > THREAD > NUMA > DIE > TILE > MODULE > L3 >
L2 > L1 > LLC, and (4) the equivalence map sends the dropped kind to the
kept kind while the dropped layer leaves the type list. -/
theorem claim_C1 (topo : Topology) (i : Nat)
    (hnodup : topo.types.Nodup) (hlt : i + 1 < topo.types.length)
    (removedT keptT : KmpHw) (rl rli : Nat)
    (hstep : radix1Step topo i = some (removedT, keptT, rl, rli)) :
    ¬(isMainLevel (topo.types.getD i KmpHw.UNKNOWN) ∧
        isMainLevel (topo.types.getD (i + 1) KmpHw.UNKNOWN)) ∧
    (radixScanStart i (i + 1) topo.hw_threads).1 = true ∧
    (GroupedAt topo.hw_threads i →
      ∀ p q : Fin topo.hw_threads.length,
        (topo.hw_threads.get p).ids.getD i 0 =
          (topo.hw_threads.get q).ids.getD i 0 →
        (topo.hw_threads.get p).ids.getD (i + 1) 0 =
          (topo.hw_threads.get q).ids.getD (i + 1) 0) ∧
    ((removedT = topo.types.getD i KmpHw.UNKNOWN ∧
        keptT = topo.types.getD (i + 1) KmpHw.UNKNOWN ∧ rl = i) ∨
      (removedT = topo.types.getD (i + 1) KmpHw.UNKNOWN ∧
        keptT = topo.types.getD i KmpHw.UNKNOWN ∧ rl = i + 1)) ∧
    preference removedT < preference keptT ∧
    (applyRemoval topo removedT keptT rl rli).equivalent removedT = keptT ∧
    (applyRemoval topo removedT keptT rl rli).types = topo.types.eraseIdx rl := by
  simp only [radix1Step] at hstep
  by_cases hmain : isMainLevel (topo.types.getD i KmpHw.UNKNOWN) ∧
      isMainLevel (topo.types.getD (i + 1) KmpHw.UNKNOWN)
  · rw [if_pos hmain] at hstep
    exact absurd hstep (by simp)
  · rw [if_neg hmain] at hstep
    by_cases hscan : (radixScanStart i (i + 1) topo.hw_threads).1 = true
    · rw [if_pos hscan] at hstep
      have htyne : topo.types.getD i KmpHw.UNKNOWN ≠
          topo.types.getD (i + 1) KmpHw.UNKNOWN := by
        rw [List.getD_eq_get _ _ (by omega), List.getD_eq_get _ _ hlt]
        intro he
        have := (List.Nodup.get_inj_iff hnodup).mp he
        simp at this
      have hsem : GroupedAt topo.hw_threads i →
          ∀ p q : Fin topo.hw_threads.length,
            (topo.hw_threads.get p).ids.getD i 0 =
              (topo.hw_threads.get q).ids.getD i 0 →
            (topo.hw_threads.get p).ids.getD (i + 1) 0 =
              (topo.hw_threads.get q).ids.getD (i + 1) 0 := fun hgrp =>
        chain_grouped_semantic i (i + 1) topo.hw_threads
          ((radixScanStart_fst_true_iff i (i + 1) topo.hw_threads).mp hscan) hgrp
      by_cases hpref : preference (topo.types.getD i KmpHw.UNKNOWN) >
          preference (topo.types.getD (i + 1) KmpHw.UNKNOWN)
      · rw [if_pos hpref] at hstep
        simp only [Option.some.injEq, Prod.mk.injEq] at hstep
        obtain ⟨hr, hk, hrl, -⟩ := hstep
        subst hr; subst hk; subst hrl
        refine ⟨hmain, hscan, hsem, Or.inr ⟨rfl, rfl, rfl⟩, hpref, ?_, rfl⟩
        simp [applyRemoval, set_equivalent_type]
      · rw [if_neg hpref] at hstep
        simp only [Option.some.injEq, Prod.mk.injEq] at hstep
        obtain ⟨hr, hk, hrl, -⟩ := hstep
        subst hr; subst hk; subst hrl
        have hplt : preference (topo.types.getD i KmpHw.UNKNOWN) <
            preference (topo.types.getD (i + 1) KmpHw.UNKNOWN) := by
          have hne : preference (topo.types.getD i KmpHw.UNKNOWN) ≠
              preference (topo.types.getD (i + 1) KmpHw.UNKNOWN) :=
            fun h => htyne (preference_injective _ _ h)
          omega
        refine ⟨hmain, hscan, hsem, Or.inl ⟨rfl, rfl, rfl⟩, hplt, ?_, rfl⟩
        simp [applyRemoval, set_equivalent_type]
    · rw [if_neg hscan] at hstep
      exact absurd hstep (by simp)

/-- C1 witness: `claim_C1` applied to `radix1ExampleTopo` at `i = 0`, where
the step removes the NUMA layer under SOCKET. -/
theorem claim_C1_witness :
    preference KmpHw.NUMA < preference KmpHw.SOCKET ∧
    (applyRemoval radix1ExampleTopo KmpHw.NUMA KmpHw.SOCKET 1 1).equivalent
      KmpHw.NUMA = KmpHw.SOCKET := by
  have h := claim_C1 radix1ExampleTopo 0 (by decide) (by decide)
    KmpHw.NUMA KmpHw.SOCKET 1 1 (by decide)
  exact ⟨h.2.2.2.2.1, h.2.2.2.2.2.1⟩

/-- C1 counterexample to the claim as stated: in `radix1ExampleTopo` the
NUMA layer is radix-1 under its adjacent outer layer SOCKET; the claim
("removed only when neither of the two layers is SOCKET, CORE, or THREAD")
predicts no removal, since one member of every adjacent pair here is
SOCKET, CORE or THREAD; yet `_remove_radix1_layers` drops NUMA and maps it
to SOCKET.  The source only protects a pair when both members are main
levels. -/
theorem claim_C1_counterexample :
    radix1ExampleTopo.types =
      [KmpHw.SOCKET, KmpHw.NUMA, KmpHw.CORE, KmpHw.THREAD] ∧
    isMainLevel (radix1ExampleTopo.types.getD 0 KmpHw.UNKNOWN) ∧
    (kmp_topology_remove_radix1_layers radix1ExampleTopo).1.types =
      [KmpHw.SOCKET, KmpHw.CORE, KmpHw.THREAD] ∧
    (kmp_topology_remove_radix1_layers radix1ExampleTopo).1.equivalent
      KmpHw.NUMA = KmpHw.SOCKET := by
  exact ⟨rfl, by decide, by decide, by decide⟩

theorem filter_fold_count (sf : Nat → HwThread → Bool) :
    ∀ (l : List (Nat × HwThread)) (acc : Finset Nat × Nat),
      (∀ p ∈ l, sf p.1 p.2 = true) →
      (l.foldl (fun acc p =>
        if sf p.1 p.2 then (acc.1.erase p.2.os_id, acc.2 + 1) else acc) acc).2 =
        acc.2 + l.length := by
  intro l
  induction l with
  | nil => intro acc _; simp
  | cons p l ih =>
    intro acc hall
    rw [List.foldl_cons, if_pos (hall p (by simp)),
      ih _ fun q hq => hall q (List.mem_cons_of_mem p hq)]
    simp
    omega

/-- C6: when the hardware-subset filter would clear the bit of every
hardware thread, `filter_hw_subset` rejects: `restrict_to_mask` is never
invoked (the decision is `none`) and the state — topology, process full
mask, available-processor count — is returned unchanged with result
`false`. -/
theorem claim_C6 (st : AffState) (sf : Nat → HwThread → Bool)
    (hall : ∀ p ∈ st.topo.hw_threads.enum, sf p.1 p.2 = true) :
    filter_hw_subset_decision st sf = none ∧
    kmp_topology_filter_hw_subset_apply st sf = (st, false) := by
  have hdec : filter_hw_subset_decision st sf = none := by
    simp only [filter_hw_subset_decision]
    rw [filter_fold_count sf _ _ hall]
    rw [if_pos (by simp)]
  refine ⟨hdec, ?_⟩
  simp only [kmp_topology_filter_hw_subset_apply, hdec]

/-- C6 witness: `claim_C6` at a concrete state with a filter that removes
every thread. -/
theorem claim_C6_witness :
    filter_hw_subset_decision exAffState (fun _ _ => true) = none ∧
    kmp_topology_filter_hw_subset_apply exAffState (fun _ _ => true) =
      (exAffState, false) :=
  claim_C6 exAffState (fun _ _ => true) (fun _ _ => rfl)

theorem llc_preserves (t : Topology) :
    (kmp_topology_set_last_level_cache t).types = t.types ∧
    (kmp_topology_set_last_level_cache t).ratio = t.ratio ∧
    (kmp_topology_set_last_level_cache t).count = t.count ∧
    (kmp_topology_set_last_level_cache t).uniform = t.uniform ∧
    (kmp_topology_set_last_level_cache t).hw_threads = t.hw_threads := by
  simp only [kmp_topology_set_last_level_cache]
  split_ifs <;> exact ⟨rfl, rfl, rfl, rfl, rfl⟩

theorem restrict_affected_topo (st : AffState) (m : Finset Nat)
    (h : (kmp_topology_restrict_to_mask st m).2 = true) :
    ∃ t2 : Topology, (kmp_topology_restrict_to_mask st m).1.topo =
      kmp_topology_set_last_level_cache (kmp_topology_discover_uniformity t2) := by
  simp only [kmp_topology_restrict_to_mask] at h ⊢
  split at h
  · split
    · exact ⟨_, rfl⟩
    · simp_all
  · simp at h

/-- C7: after canonicalization, and after any `restrict_to_mask` that
reports an effect (removed threads), the `uniform` flag is true iff the
product of `ratio[0..depth-1]` equals `count[depth-1]`. -/
theorem claim_C7 (st : AffState) (m : Finset Nat) :
    ((kmp_topology_canonicalize st).topo.uniform = true ↔
      (((kmp_topology_canonicalize st).topo.ratio.take
          (kmp_topology_canonicalize st).topo.types.length).prod =
        (kmp_topology_canonicalize st).topo.count.getD
          ((kmp_topology_canonicalize st).topo.types.length - 1) 0)) ∧
    ((kmp_topology_restrict_to_mask st m).2 = true →
      ((kmp_topology_restrict_to_mask st m).1.topo.uniform = true ↔
        (((kmp_topology_restrict_to_mask st m).1.topo.ratio.take
            (kmp_topology_restrict_to_mask st m).1.topo.types.length).prod =
          (kmp_topology_restrict_to_mask st m).1.topo.count.getD
            ((kmp_topology_restrict_to_mask st m).1.topo.types.length - 1) 0))) := by
  constructor
  · simp only [kmp_topology_canonicalize]
    rw [(llc_preserves _).1, (llc_preserves _).2.1, (llc_preserves _).2.2.1,
      (llc_preserves _).2.2.2.1]
    exact ⟨of_decide_eq_true, decide_eq_true⟩
  · intro h
    obtain ⟨t2, ht⟩ := restrict_affected_topo st m h
    rw [ht, (llc_preserves _).1, (llc_preserves _).2.1, (llc_preserves _).2.2.1,
      (llc_preserves _).2.2.2.1]
    exact ⟨of_decide_eq_true, decide_eq_true⟩

/-- C7 witness: `claim_C7` applied at a state and mask for which
`restrict_to_mask` reports an effect. -/
theorem claim_C7_witness :
    (kmp_topology_restrict_to_mask exAffState {0, 1}).2 = true ∧
    ((kmp_topology_restrict_to_mask exAffState {0, 1}).1.topo.uniform = true ↔
      (((kmp_topology_restrict_to_mask exAffState {0, 1}).1.topo.ratio.take
          (kmp_topology_restrict_to_mask exAffState {0, 1}).1.topo.types.length).prod =
        (kmp_topology_restrict_to_mask exAffState {0, 1}).1.topo.count.getD
          ((kmp_topology_restrict_to_mask exAffState {0, 1}).1.topo.types.length - 1) 0)) :=
  ⟨by decide, (claim_C7 exAffState {0, 1}).2 (by decide)⟩

theorem restrict_fold_all_kept (m : Finset Nat) :
    ∀ (l : List HwThread) (a : List HwThread) (b : Finset Nat) (c : Int),
      (∀ t ∈ l, t.os_id ∈ m) →
      (l.foldl (fun acc t =>
          if t.os_id ∈ m then (t :: acc.1, acc.2.1, acc.2.2)
          else (acc.1, acc.2.1.erase t.os_id, acc.2.2 - 1)) (a, b, c)) =
        (l.reverse ++ a, b, c) := by
  intro l
  induction l with
  | nil => intro a b c _; simp
  | cons t l ih =>
    intro a b c hall
    rw [List.foldl_cons, if_pos (hall t (by simp)),
      ih _ _ _ fun u hu => hall u (List.mem_cons_of_mem t hu)]
    simp

theorem restrict_fold_fst (m : Finset Nat) :
    ∀ (l : List HwThread) (a : List HwThread) (b : Finset Nat) (c : Int),
      (l.foldl (fun acc t =>
          if t.os_id ∈ m then (t :: acc.1, acc.2.1, acc.2.2)
          else (acc.1, acc.2.1.erase t.os_id, acc.2.2 - 1)) (a, b, c)).1 =
        (l.filter fun t => decide (t.os_id ∈ m)).reverse ++ a := by
  intro l
  induction l with
  | nil => intro a b c; simp
  | cons t l ih =>
    intro a b c
    by_cases hm : t.os_id ∈ m
    · rw [List.foldl_cons, if_pos hm, ih]
      simp [List.filter_cons, hm]
    · rw [List.foldl_cons, if_neg hm, ih]
      simp [List.filter_cons, hm]

/-- C8: `restrict_to_mask` with a mask containing every current hardware
thread's OS id (in particular the current full mask) changes nothing and
reports no effect; and applying `restrict_to_mask(m)` a second time after
a first application changes nothing further (idempotence). -/
theorem claim_C8 (st : AffState) (m : Finset Nat) :
    ((∀ t ∈ st.topo.hw_threads, t.os_id ∈ m) →
      kmp_topology_restrict_to_mask st m = (st, false)) ∧
    kmp_topology_restrict_to_mask (kmp_topology_restrict_to_mask st m).1 m =
      ((kmp_topology_restrict_to_mask st m).1, false) := by
  have parta : ∀ s : AffState, (∀ t ∈ s.topo.hw_threads, t.os_id ∈ m) →
      kmp_topology_restrict_to_mask s m = (s, false) := by
    intro s hall
    simp only [kmp_topology_restrict_to_mask]
    rw [restrict_fold_all_kept m _ _ _ _ hall]
    simp only [List.append_nil, List.reverse_reverse]
    rw [if_neg (by exact fun hne => hne rfl)]
  have hthreads : (kmp_topology_restrict_to_mask st m).1.topo.hw_threads =
      st.topo.hw_threads.filter fun t => decide (t.os_id ∈ m) := by
    simp only [kmp_topology_restrict_to_mask]
    split
    · dsimp only
      rw [(llc_preserves _).2.2.2.2]
      show (st.topo.hw_threads.foldl _ ([], st.fullMask, st.availProc)).1.reverse = _
      rw [restrict_fold_fst m]
      simp
    · dsimp only
      rw [restrict_fold_fst m]
      simp
  refine ⟨parta st, ?_⟩
  apply parta
  rw [hthreads]
  intro t ht
  exact of_decide_eq_true (List.mem_filter.mp ht).2

/-- C8 witness: `claim_C8` applied with a mask containing every OS id of
the concrete state. -/
theorem claim_C8_witness :
    kmp_topology_restrict_to_mask exAffState {0, 1, 2, 3} =
      (exAffState, false) :=
  (claim_C8 exAffState {0, 1, 2, 3}).1 (by decide)

theorem shiftScan_snd (stride : Int) (maxOsId : Nat) (fullMask : Finset Nat)
    (valid : Nat → Bool) : ∀ l : List Nat,
    (shiftScan stride maxOsId fullMask valid l).2 =
      (l.filter fun j => decide (dropCond stride maxOsId fullMask valid j)).map
        fun j => (j : Int) + stride := by
  intro l
  induction l with
  | nil => rfl
  | cons j rest ih =>
    simp only [shiftScan]
    by_cases hd : dropCond stride maxOsId fullMask valid j
    · simp [hd, ih, List.filter_cons]
    · simp [hd, ih, List.filter_cons]

theorem shiftScan_fst (stride : Int) (maxOsId : Nat) (fullMask : Finset Nat)
    (valid : Nat → Bool) : ∀ l : List Nat,
    (shiftScan stride maxOsId fullMask valid l).1 =
      ((l.filter fun j => decide (¬dropCond stride maxOsId fullMask valid j)).map
        fun j : Nat => ((j : Int) + stride).toNat).toFinset := by
  intro l
  induction l with
  | nil => rfl
  | cons j rest ih =>
    simp only [shiftScan]
    by_cases hd : dropCond stride maxOsId fullMask valid j
    · simp [hd, ih, List.filter_cons]
    · simp [hd, ih, List.filter_cons]

theorem shiftScan_iter_fst (stride : Int) (maxOsId : Nat) (fullMask : Finset Nat)
    (valid : Nat → Bool) (S : Finset Nat)
    (hsub : S ⊆ Finset.range (maxOsId + 1)) :
    (shiftScan stride maxOsId fullMask valid (maskIter maxOsId S)).1 =
      specShift stride maxOsId fullMask valid S := by
  rw [shiftScan_fst]
  ext x
  simp only [List.mem_toFinset, List.mem_map, List.mem_filter, maskIter,
    List.mem_range, specShift, Finset.mem_image, Finset.mem_filter,
    decide_eq_true_eq]
  constructor
  · rintro ⟨j, ⟨⟨-, hjS⟩, hnd⟩, hfx⟩
    exact ⟨j, ⟨hjS, hnd⟩, hfx⟩
  · rintro ⟨j, ⟨hjS, hnd⟩, hfx⟩
    exact ⟨j, ⟨⟨Finset.mem_range.mp (hsub hjS), hjS⟩, hnd⟩, hfx⟩

theorem shiftScan_iter_snd (stride : Int) (maxOsId : Nat) (fullMask : Finset Nat)
    (valid : Nat → Bool) (S : Finset Nat) :
    (shiftScan stride maxOsId fullMask valid (maskIter maxOsId S)).2 =
      specDropped stride maxOsId fullMask valid S := by
  rw [shiftScan_snd]
  rfl

theorem specShift_subset (stride : Int) (maxOsId : Nat) (fullMask : Finset Nat)
    (valid : Nat → Bool) (S : Finset Nat) :
    specShift stride maxOsId fullMask valid S ⊆ Finset.range (maxOsId + 1) := by
  intro x hx
  simp only [specShift, Finset.mem_image, Finset.mem_filter] at hx
  obtain ⟨j, ⟨-, hnd⟩, rfl⟩ := hx
  simp only [dropCond, not_or] at hnd
  obtain ⟨h1, h2, -, -⟩ := hnd
  simp only [Finset.mem_range]
  omega

/-- C4 (amended): each `place : count : stride` clause emits the base place
followed by successive element-wise shifts, but stops early — with fewer
than `count` places — as soon as a shifted place becomes empty; a shifted
position that fails the drop test (runs out of `[0, maxOsId]`, source bit
outside the full mask, or target not a valid OS id) is dropped with a
warning on every iteration except the final one, whose shifted mask is
discarded and whose drops are silent. -/
theorem claim_C4 (stride : Int) (maxOsId : Nat) (fullMask : Finset Nat)
    (valid : Nat → Bool) : ∀ (count : Nat) (base : Finset Nat),
    base ⊆ Finset.range (maxOsId + 1) →
    kmp_process_place_count base count stride maxOsId fullMask valid =
      (specAmendedPlaces stride maxOsId fullMask valid count base,
       specAmendedWarns stride maxOsId fullMask valid count base) := by
  intro count
  induction count with
  | zero => intro base _; rfl
  | succ r ih =>
    intro base hsub
    simp only [kmp_process_place_count, placeClauseGo, specAmendedPlaces,
      specAmendedWarns]
    by_cases hb : base = ∅
    · simp [hb]
    · have hcard : ¬base.card = 0 := by simpa [Finset.card_eq_zero] using hb
      rw [if_neg hcard, if_neg hb, if_neg hb,
        shiftScan_iter_fst stride maxOsId fullMask valid base hsub,
        shiftScan_iter_snd]
      simp only [kmp_process_place_count] at ih
      rw [ih _ (specShift_subset stride maxOsId fullMask valid base)]

/-- C4 witness: `claim_C4` at the concrete inputs of the counterexample
(the base place is contained in `[0, maxOsId]`). -/
theorem claim_C4_witness :
    kmp_process_place_count {0, 4} 3 5 8 (Finset.range 9)
        (fun n => decide (n ≤ 8)) =
      (specAmendedPlaces 5 8 (Finset.range 9) (fun n => decide (n ≤ 8)) 3 {0, 4},
       specAmendedWarns 5 8 (Finset.range 9) (fun n => decide (n ≤ 8)) 3 {0, 4}) :=
  claim_C4 5 8 (Finset.range 9) (fun n => decide (n ≤ 8)) 3 {0, 4} (by decide)

/-- C4 counterexample to the claim as stated, at base place `{0, 4}`,
`count = 3`, `stride = 5`, `maxOsId = 8`, full mask `{0..8}`, all OS ids
`≤ 8` valid.  The claim predicts exactly 3 places and warnings only while
producing the last of them; the code emits only 2 places (generation stops
once a shifted place is empty) and warns about position 9 already while
producing the second place, staying silent only in the final iteration. -/
theorem claim_C4_counterexample :
    (kmp_process_place_count {0, 4} 3 5 8 (Finset.range 9)
      (fun n => decide (n ≤ 8))).1 = [{0, 4}, {5}] ∧
    (kmp_process_place_count {0, 4} 3 5 8 (Finset.range 9)
      (fun n => decide (n ≤ 8))).1.length ≠ 3 ∧
    (kmp_process_place_count {0, 4} 3 5 8 (Finset.range 9)
      (fun n => decide (n ≤ 8))).2 = [9, 10] := by
  decide

theorem apicLe_iff (a b : ApicThreadInfo) :
    apicLe a b ↔ (a.pkgId < b.pkgId ∨ (a.pkgId = b.pkgId ∧
      (a.coreId < b.coreId ∨ (a.coreId = b.coreId ∧ a.threadId ≤ b.threadId)))) := by
  unfold apicLe kmp_affinity_cmp_apicThreadInfo_phys_id
  split_ifs <;> omega

instance : IsTotal ApicThreadInfo apicLe :=
  ⟨fun a b => by rw [apicLe_iff, apicLe_iff]; omega⟩

instance : IsTrans ApicThreadInfo apicLe :=
  ⟨fun a b c hab hbc => by
    rw [apicLe_iff] at hab hbc ⊢
    omega⟩

theorem apicLe_pkg {a b : ApicThreadInfo} (h : apicLe a b) :
    a.pkgId ≤ b.pkgId := by
  rw [apicLe_iff] at h
  omega

theorem apicLoopGo_error_eq (l : List ApicThreadInfo) :
    ∀ (st : ApicLoopSt) (prev : ApicThreadInfo),
    st.lastPkgId = prev.pkgId → st.lastCoreId = prev.coreId →
    st.lastThreadId = prev.threadId →
    List.Chain' (fun a b => apicTup a ≠ apicTup b) (prev :: l) →
    ∀ e, apicLoopGo st l = .error e → e = .InconsistentCpuidInfo := by
  induction l with
  | nil =>
    intro st prev _ _ _ _ e he
    simp [apicLoopGo] at he
  | cons r rest ih =>
    intro st prev hp hc ht hch e he
    rw [List.chain'_cons] at hch
    obtain ⟨hne, hch'⟩ := hch
    rw [apicLoopGo] at he
    by_cases h1 : r.pkgId ≠ st.lastPkgId
    · rw [if_pos h1] at he
      exact ih _ r rfl rfl rfl hch' e he
    · rw [if_neg h1] at he
      have h1e : r.pkgId = st.lastPkgId := not_ne_iff.mp h1
      by_cases h2 : r.coreId ≠ st.lastCoreId
      · rw [if_pos h2] at he
        by_cases h3 : st.prevMaxCoresPerPkg ≠ r.maxCoresPerPkg ∨
            st.prevMaxThreadsPerPkg ≠ r.maxThreadsPerPkg
        · rw [if_pos h3] at he
          exact (Except.error.inj he).symm
        · rw [if_neg h3] at he
          refine ih _ r ?_ ?_ ?_ hch' e he
          · exact h1e.symm
          · rfl
          · rfl
      · rw [if_neg h2] at he
        have h2e : r.coreId = st.lastCoreId := not_ne_iff.mp h2
        by_cases h4 : r.threadId ≠ st.lastThreadId
        · rw [if_pos h4] at he
          by_cases h3 : st.prevMaxCoresPerPkg ≠ r.maxCoresPerPkg ∨
              st.prevMaxThreadsPerPkg ≠ r.maxThreadsPerPkg
          · rw [if_pos h3] at he
            exact (Except.error.inj he).symm
          · rw [if_neg h3] at he
            refine ih _ r ?_ ?_ ?_ hch' e he
            · exact h1e.symm
            · exact h2e.symm
            · rfl
        · rw [if_neg h4] at he
          have h4e : r.threadId = st.lastThreadId := not_ne_iff.mp h4
          exact absurd (show apicTup prev = apicTup r from by
            simp [apicTup, ← hp, ← hc, ← ht, h1e, h2e, h4e]) hne

theorem apicLoopGo_ok_agree (l : List ApicThreadInfo) :
    ∀ (st out : ApicLoopSt),
    (∀ r ∈ l, st.lastPkgId ≤ r.pkgId) →
    List.Pairwise (fun a b => a.pkgId ≤ b.pkgId) l →
    apicLoopGo st l = .ok out →
    (∀ r ∈ l, r.pkgId = st.lastPkgId →
      r.maxCoresPerPkg = st.prevMaxCoresPerPkg ∧
      r.maxThreadsPerPkg = st.prevMaxThreadsPerPkg) ∧
    (∀ a ∈ l, ∀ b ∈ l, a.pkgId = b.pkgId →
      a.maxCoresPerPkg = b.maxCoresPerPkg ∧
      a.maxThreadsPerPkg = b.maxThreadsPerPkg) := by
  induction l with
  | nil =>
    intro st out _ _ _
    exact ⟨fun r hr => absurd hr (by simp), fun a ha => absurd ha (by simp)⟩
  | cons r rest ih =>
    intro st out hmono hpw hok
    rw [List.pairwise_cons] at hpw
    obtain ⟨hr_le, hpw'⟩ := hpw
    rw [apicLoopGo] at hok
    by_cases h1 : r.pkgId ≠ st.lastPkgId
    · rw [if_pos h1] at hok
      have hlt : st.lastPkgId < r.pkgId :=
        lt_of_le_of_ne (hmono r (by simp)) (Ne.symm h1)
      obtain ⟨P1, P2⟩ := ih _ out (fun x hx => hr_le x hx) hpw' hok
      constructor
      · intro x hx hxpkg
        rcases List.mem_cons.mp hx with rfl | hxR
        · exact absurd hxpkg h1
        · exact absurd hxpkg (by have := hr_le x hxR; omega)
      · intro a ha b hb hab
        rcases List.mem_cons.mp ha with rfl | haR <;>
          rcases List.mem_cons.mp hb with rfl | hbR
        · exact ⟨rfl, rfl⟩
        · have := P1 b hbR hab.symm
          exact ⟨this.1.symm, this.2.symm⟩
        · exact P1 a haR hab
        · exact P2 a haR b hbR hab
    · rw [if_neg h1] at hok
      have h1e : r.pkgId = st.lastPkgId := not_ne_iff.mp h1
      have hnext : ∀ (st' : ApicLoopSt), st'.lastPkgId = st.lastPkgId →
          st'.prevMaxCoresPerPkg = st.prevMaxCoresPerPkg →
          st'.prevMaxThreadsPerPkg = st.prevMaxThreadsPerPkg →
          apicLoopGo st' rest = .ok out →
          st.prevMaxCoresPerPkg = r.maxCoresPerPkg →
          st.prevMaxThreadsPerPkg = r.maxThreadsPerPkg →
          (∀ x ∈ r :: rest, x.pkgId = st.lastPkgId →
            x.maxCoresPerPkg = st.prevMaxCoresPerPkg ∧
            x.maxThreadsPerPkg = st.prevMaxThreadsPerPkg) ∧
          (∀ a ∈ r :: rest, ∀ b ∈ r :: rest, a.pkgId = b.pkgId →
            a.maxCoresPerPkg = b.maxCoresPerPkg ∧
            a.maxThreadsPerPkg = b.maxThreadsPerPkg) := by
        intro st' hsp hsc hst hok' hmc hmt
        obtain ⟨P1, P2⟩ := ih st' out
          (fun x hx => by rw [hsp]; exact le_trans (h1e ▸ hr_le x hx) le_rfl)
          hpw' hok'
        have P1s : ∀ x ∈ rest, x.pkgId = st.lastPkgId →
            x.maxCoresPerPkg = st.prevMaxCoresPerPkg ∧
            x.maxThreadsPerPkg = st.prevMaxThreadsPerPkg := by
          intro x hx hxp
          have := P1 x hx (by rw [hsp]; exact hxp)
          rw [hsc] at this
          rw [hst] at this
          exact this
        constructor
        · intro x hx hxp
          rcases List.mem_cons.mp hx with rfl | hxR
          · exact ⟨hmc.symm, hmt.symm⟩
          · exact P1s x hxR hxp
        · intro a ha b hb hab
          rcases List.mem_cons.mp ha with rfl | haR <;>
            rcases List.mem_cons.mp hb with rfl | hbR
          · exact ⟨rfl, rfl⟩
          · have := P1s b hbR (hab.symm.trans h1e)
            exact ⟨(this.1.trans hmc).symm, (this.2.trans hmt).symm⟩
          · have := P1s a haR (hab.trans h1e)
            exact ⟨this.1.trans hmc, this.2.trans hmt⟩
          · exact P2 a haR b hbR hab
      by_cases h2 : r.coreId ≠ st.lastCoreId
      · rw [if_pos h2] at hok
        by_cases h3 : st.prevMaxCoresPerPkg ≠ r.maxCoresPerPkg ∨
            st.prevMaxThreadsPerPkg ≠ r.maxThreadsPerPkg
        · rw [if_pos h3] at hok
          exact absurd hok (by simp)
        · rw [if_neg h3] at hok
          push_neg at h3
          refine hnext _ ?_ ?_ ?_ hok h3.1 h3.2 <;> rfl
      · rw [if_neg h2] at hok
        by_cases h4 : r.threadId ≠ st.lastThreadId
        · rw [if_pos h4] at hok
          by_cases h3 : st.prevMaxCoresPerPkg ≠ r.maxCoresPerPkg ∨
              st.prevMaxThreadsPerPkg ≠ r.maxThreadsPerPkg
          · rw [if_pos h3] at hok
            exact absurd hok (by simp)
          · rw [if_neg h3] at hok
            push_neg at h3
            refine hnext _ ?_ ?_ ?_ hok h3.1 h3.2 <;> rfl
        · rw [if_neg h4] at hok
          exact absurd hok (by simp)

/-- C9 (amended): in the legacy APIC back-end's validation of the collected
table, provided no two processors report the same (package, core, thread)
id triple (identical triples fail earlier with `LegacyApicIDsNotUnique`),
if two processors of the same package disagree on `maxCoresPerPkg` or
`maxThreadsPerPkg`, the validation fails with `InconsistentCpuidInfo`. -/
theorem claim_C9 (l : List ApicThreadInfo)
    (hnodup : (l.map apicTup).Nodup)
    (hpair : ∃ a ∈ l, ∃ b ∈ l, a.pkgId = b.pkgId ∧
      (a.maxCoresPerPkg ≠ b.maxCoresPerPkg ∨
       a.maxThreadsPerPkg ≠ b.maxThreadsPerPkg)) :
    kmp_affinity_create_apicid_map_validate l =
      .error .InconsistentCpuidInfo := by
  unfold kmp_affinity_create_apicid_map_validate
  have hperm : List.Perm (List.insertionSort apicLe l) l :=
    List.perm_insertionSort apicLe l
  have hsorted : List.Sorted apicLe (List.insertionSort apicLe l) :=
    List.sorted_insertionSort apicLe l
  have hnodup' : ((List.insertionSort apicLe l).map apicTup).Nodup :=
    (hperm.map apicTup).nodup_iff.mpr hnodup
  have hpair' : ∃ a ∈ List.insertionSort apicLe l,
      ∃ b ∈ List.insertionSort apicLe l, a.pkgId = b.pkgId ∧
      (a.maxCoresPerPkg ≠ b.maxCoresPerPkg ∨
       a.maxThreadsPerPkg ≠ b.maxThreadsPerPkg) := by
    obtain ⟨a, ha, b, hb, h1, h2⟩ := hpair
    exact ⟨a, hperm.mem_iff.mpr ha, b, hperm.mem_iff.mpr hb, h1, h2⟩
  cases hs : List.insertionSort apicLe l with
  | nil =>
    rw [hs] at hpair'
    obtain ⟨a, ha, -⟩ := hpair'
    exact absurd ha (by simp)
  | cons t0 rest =>
    rw [hs] at hnodup' hpair' hsorted
    have hchain : List.Chain' (fun a b => apicTup a ≠ apicTup b) (t0 :: rest) :=
      List.Pairwise.chain' (List.pairwise_map.mp hnodup')
    cases hr : apicLoopGo (apicInitSt t0) rest with
    | error e =>
      have he := apicLoopGo_error_eq rest (apicInitSt t0) t0 rfl rfl rfl hchain e hr
      dsimp only
      rw [hr, he]
    | ok out =>
      exfalso
      have hmono : ∀ x ∈ rest, (apicInitSt t0).lastPkgId ≤ x.pkgId :=
        fun x hx => apicLe_pkg (List.rel_of_sorted_cons hsorted x hx)
      have hpw : List.Pairwise (fun a b => a.pkgId ≤ b.pkgId) rest :=
        ((List.sorted_cons.mp hsorted).2).imp fun h => apicLe_pkg h
      obtain ⟨P1, P2⟩ := apicLoopGo_ok_agree rest (apicInitSt t0) out hmono hpw hr
      obtain ⟨a, ha, b, hb, hpkg, hdiff⟩ := hpair'
      rcases List.mem_cons.mp ha with rfl | haR <;>
        rcases List.mem_cons.mp hb with rfl | hbR
      · rcases hdiff with h | h <;> exact h rfl
      · have hb' := P1 b hbR hpkg.symm
        rcases hdiff with h | h
        · exact h hb'.1.symm
        · exact h hb'.2.symm
      · have ha' := P1 a haR hpkg
        rcases hdiff with h | h
        · exact h ha'.1
        · exact h ha'.2
      · have hab := P2 a haR b hbR hpkg
        rcases hdiff with h | h
        · exact h hab.1
        · exact h hab.2

/-- C9 witness: `claim_C9` at a two-record table with distinct id triples,
equal package ids and differing `maxCoresPerPkg`. -/
theorem claim_C9_witness :
    kmp_affinity_create_apicid_map_validate [apicExC, apicExD] =
      .error .InconsistentCpuidInfo :=
  claim_C9 [apicExC, apicExD] (by decide)
    ⟨apicExC, by simp, apicExD, by simp, rfl, Or.inl (by decide)⟩

/-- C9 counterexample to the claim as stated: when the two same-package
records with disagreeing `maxCoresPerPkg` also report identical
(package, core, thread) triples — duplicate APIC ids — discovery fails
with `LegacyApicIDsNotUnique`, not `InconsistentCpuidInfo` as the claim
demands. -/
theorem claim_C9_counterexample :
    kmp_affinity_create_apicid_map_validate [apicExA, apicExB] =
      .error .LegacyApicIDsNotUnique ∧
    apicExA.pkgId = apicExB.pkgId ∧
    apicExA.maxCoresPerPkg ≠ apicExB.maxCoresPerPkg :=
  ⟨rfl, rfl, by decide⟩

end KmpAff
